import Mathlib

/-!
Shallow embedding of the resume-analysis core of `ats/utils/ai_processor.py`
(class `ResumeAnalyzer`), together with theorems settling the frozen claims
about its specification.

Modelling conventions:
* Python strings are Lean `String`s, processed as `List Char`.
* Python floats are modelled as exact rationals (`ℚ`); `np.round(x, 2)` is
  round-half-to-even on the scaled rational.
* Regex operations of the source are compiled by hand into character-level
  scanners that implement the exact patterns used (with Python `re`'s ASCII
  behaviour for `\s`, `\w`, `\d` and `re.I` case folding).
* External capabilities (the spaCy model, rapidfuzz, pdfplumber, pandas I/O)
  are parameters (`ModelEnv`, the flattened cell list); everything written in
  the repository itself is embedded as executable Lean code.
* Fallible arithmetic (Python division, which raises on a zero denominator)
  returns `Option`.
-/

namespace ATS

/-! ### Character classes (Python `re` ASCII semantics) -/

/-- Python `\s` (and `str.strip()` / `str.split()` whitespace) on ASCII. -/
def isPySpace (c : Char) : Bool :=
  c = ' ' || c = '\t' || c = '\n' || c = '\r' || c = '\x0b' || c = '\x0c'

/-- Python `\w` on ASCII: letters, digits, underscore. -/
def isWordChar (c : Char) : Bool :=
  c.isAlpha || c.isDigit || c = '_'

/-- The bullet/dash glyphs replaced by `_clean_text`: `[•●–—]`. -/
def isBullet (c : Char) : Bool :=
  c = '•' || c = '●' || c = '–' || c = '—'

/-- ASCII upper-case letter, the regex class `[A-Z]`. -/
def isAZ (c : Char) : Bool := 'A' ≤ c && c ≤ 'Z'

/-- Python `str.lower()` / `re.I` folding on ASCII letters. -/
def lowerChar (c : Char) : Char :=
  if 65 ≤ c.toNat ∧ c.toNat ≤ 90 then Char.ofNat (c.toNat + 32) else c

/-- Python `str.lower()`. -/
def lowerStr (s : String) : String := ⟨s.data.map lowerChar⟩

/-- Case-insensitive "starts with" against an already-lower-cased pattern. -/
def ciStarts : List Char → List Char → Bool
  | [], _ => true
  | _ :: _, [] => false
  | p :: ps, c :: cs => (lowerChar c = p) && ciStarts ps cs

/-- Python `sub in s` (substring containment). -/
def containsSub (sub s : String) : Bool := decide (sub.data <:+: s.data)

/-! ### `_clean_text` -/

/-- Embeds `re.sub(r'\s+', ' ', text)`: each maximal whitespace run becomes one
space (a whitespace character followed by more whitespace is dropped; the last
character of a run is emitted as `' '`). -/
def collapseWS : List Char → List Char
  | [] => []
  | [c] => if isPySpace c then [' '] else [c]
  | c :: d :: rest =>
    if isPySpace c then
      if isPySpace d then collapseWS (d :: rest)
      else ' ' :: collapseWS (d :: rest)
    else c :: collapseWS (d :: rest)

/-- Embeds `re.sub(r'[•●–—]', '-', text)`. -/
def mapBullets (l : List Char) : List Char :=
  l.map (fun c => if isBullet c then '-' else c)

/-- Python `str.strip()`. -/
def stripChars (l : List Char) : List Char :=
  ((l.dropWhile isPySpace).reverse.dropWhile isPySpace).reverse

/-- Embeds `_clean_text`: collapse whitespace, normalize bullets, strip. -/
def cleanText (s : String) : String :=
  ⟨stripChars (mapBullets (collapseWS s.data))⟩

/-! ### Rounding (`np.round(x, 2)` as round-half-to-even over ℚ) -/

/-- Round half to even on ℚ, the rounding mode of `np.round`. -/
def rhe (x : ℚ) : ℤ :=
  if x - ⌊x⌋ < 1/2 then ⌊x⌋
  else if 1/2 < x - ⌊x⌋ then ⌊x⌋ + 1
  else if ⌊x⌋ % 2 = 0 then ⌊x⌋ else ⌊x⌋ + 1

/-- Embeds `np.round(x, 2)`. -/
def round2 (x : ℚ) : ℚ := (rhe (x * 100) : ℚ) / 100

theorem rhe_le (x : ℚ) : (rhe x : ℚ) ≤ x + 1/2 := by
  have h1 := Int.floor_le x
  have h2 := Int.lt_floor_add_one x
  unfold rhe
  split
  · linarith
  · split
    · push_cast; linarith
    · split <;> push_cast <;> linarith

theorem rhe_ge (x : ℚ) : x - 1/2 ≤ (rhe x : ℚ) := by
  have h1 := Int.floor_le x
  have h2 := Int.lt_floor_add_one x
  unfold rhe
  split
  · linarith
  · split
    · push_cast; linarith
    · split <;> push_cast <;> linarith

theorem rhe_ge_floor (x : ℚ) : ⌊x⌋ ≤ rhe x := by
  unfold rhe
  split
  · omega
  · split
    · omega
    · split <;> omega

/-- The function `round2` keeps values within `[0, 100]` when its argument is. -/
theorem round2_bounds {x : ℚ} (h0 : 0 ≤ x) (h1 : x ≤ 100) :
    0 ≤ round2 x ∧ round2 x ≤ 100 := by
  have hle := rhe_le (x * 100)
  have hfl : (0 : ℤ) ≤ rhe (x * 100) := by
    have h := rhe_ge_floor (x * 100)
    have : (0 : ℤ) ≤ ⌊x * 100⌋ := Int.floor_nonneg.mpr (by positivity)
    omega
  have hup : rhe (x * 100) ≤ 10000 := by
    by_contra h
    push_neg at h
    have : (10001 : ℚ) ≤ (rhe (x * 100) : ℚ) := by exact_mod_cast h
    linarith
  constructor
  · unfold round2
    have : ((0 : ℤ) : ℚ) ≤ (rhe (x * 100) : ℚ) := by exact_mod_cast hfl
    positivity
  · unfold round2
    rw [div_le_iff₀ (by norm_num)]
    have : ((rhe (x * 100) : ℤ) : ℚ) ≤ (10000 : ℚ) := by exact_mod_cast hup
    linarith

/-! ### `_extract_experience` and `_calculate_experience_score` -/

/-- Numeric value of a digit run, as `int()` of the matched group. -/
def natOfDigits (ds : List Char) : ℕ :=
  ds.foldl (fun n c => 10 * n + (c.toNat - 48)) 0

/--
One attempted match of `(\d+)\+?\s*years?` (with `re.I`) at the head of `l`.
Returns the captured number and the number of characters consumed.
The pattern is deterministic at a fixed start position: shrinking the greedy
`\d+`, `\+?` or `\s*` parts leaves a character that cannot start the next
pattern element, so maximal munch is faithful.
-/
def matchYears (l : List Char) : Option (ℕ × ℕ) :=
  let ds := l.takeWhile Char.isDigit
  if ds.isEmpty then none
  else
    let r1 := l.drop ds.length
    let k1 := if r1.head? = some '+' then ds.length + 1 else ds.length
    let r2 := l.drop k1
    let ws := r2.takeWhile isPySpace
    let r3 := r2.drop ws.length
    if ciStarts ['y', 'e', 'a', 'r'] r3 then
      if (r3.drop 4).head?.map lowerChar = some 's' then
        some (natOfDigits ds, k1 + ws.length + 5)
      else
        some (natOfDigits ds, k1 + ws.length + 4)
    else none

/-- The `re.finditer` loop for the duration pattern.  `fuel` bounds the number
of scan positions; every step either consumes at least one character (a match
always has positive length) or advances by one, so starting the scan with
`fuel = l.length` never exhausts it and the `0`-fuel case is unreachable for a
non-empty list. -/
def scanYearsGo : ℕ → List Char → List ℕ
  | _, [] => []
  | 0, _ :: _ => []
  | fuel + 1, c :: cs =>
    match matchYears (c :: cs) with
    | some (n, k) => n :: scanYearsGo fuel ((c :: cs).drop k)
    | none => scanYearsGo fuel cs

/-- Embeds `re.finditer` scan for the duration pattern, returning the captured numbers. -/
def scanYears (l : List Char) : List ℕ := scanYearsGo l.length l

/--
One attempted match of `(\d{4})\s*[-—]\s*(\d{4}|present)` (with `re.I`) at the
head of `l`.  Returns `end - start` (with `present` resolved to `year`) and the
number of characters consumed.
-/
def matchRange (year : ℤ) (l : List Char) : Option (ℤ × ℕ) :=
  let d4 := l.take 4
  if d4.length = 4 ∧ d4.all Char.isDigit then
    let start := (natOfDigits d4 : ℤ)
    let r1 := l.drop 4
    let ws1 := r1.takeWhile isPySpace
    let r2 := r1.drop ws1.length
    if r2.head? = some '-' ∨ r2.head? = some '—' then
      let r3 := r2.drop 1
      let ws2 := r3.takeWhile isPySpace
      let r4 := r3.drop ws2.length
      let e4 := r4.take 4
      if e4.length = 4 ∧ e4.all Char.isDigit then
        some ((natOfDigits e4 : ℤ) - start, 4 + ws1.length + 1 + ws2.length + 4)
      else if ciStarts ['p', 'r', 'e', 's', 'e', 'n', 't'] r4 then
        some (year - start, 4 + ws1.length + 1 + ws2.length + 7)
      else none
    else none
  else none

/-- The `re.finditer` loop for the date-range pattern (fuel-bounded scan, as
for `scanYearsGo`; a match always consumes at least nine characters). -/
def scanRangesGo (year : ℤ) : ℕ → List Char → List ℤ
  | _, [] => []
  | 0, _ :: _ => []
  | fuel + 1, c :: cs =>
    match matchRange year (c :: cs) with
    | some (y, k) => y :: scanRangesGo year fuel ((c :: cs).drop k)
    | none => scanRangesGo year fuel cs

/-- Embeds `re.finditer` scan for the date-range pattern, returning `end - start` values. -/
def scanRanges (year : ℤ) (l : List Char) : List ℤ := scanRangesGo year l.length l

/-- A member of the list produced by `_extract_experience`. -/
inductive ExpMention where
  | duration (value : ℕ)
  | range (years : ℤ)
deriving DecidableEq, Repr

/-- Embeds `_extract_experience`: duration mentions first, then date ranges. -/
def extractExperience (year : ℤ) (text : String) : List ExpMention :=
  (scanYears text.data).map ExpMention.duration ++
    (scanRanges year text.data).map ExpMention.range

/-- The `exp['value']` / `exp.get('years', 0)` summand of `_calculate_experience_score`. -/
def mentionYears : ExpMention → ℤ
  | .duration n => n
  | .range y => y

/-- The `total` sum in `_calculate_experience_score`. -/
def totalYears (year : ℤ) (text : String) : ℤ :=
  ((extractExperience year text).map mentionYears).sum

/-- The `required` years derived from the lower-cased position title. -/
def requiredYears (position : String) : ℕ :=
  let p := lowerStr position
  if containsSub "senior" p then 5
  else if containsSub "junior" p then 2
  else 3

/-- Python division, which raises on a zero denominator. -/
def qdiv (a b : ℚ) : Option ℚ := if b = 0 then none else some (a / b)

/-- Embeds `_calculate_experience_score`. -/
def expScore (year : ℤ) (text position : String) : Option ℚ :=
  let total := totalYears year text
  let required := requiredYears position
  if 0 < required then
    (qdiv (total : ℚ) (required : ℚ)).map (fun q => min q 1)
  else some 0

/-! ### `_calculate_skill_score` and `_find_missing_skills` -/

/-- Embeds `_calculate_skill_score`: fraction of required skills found (lower-cased). -/
def skillScore (cvSkills requiredSkills : List String) : Option ℚ :=
  if requiredSkills.isEmpty then some 1
  else
    let matched := (requiredSkills.filter (fun s => cvSkills.contains (lowerStr s))).length
    qdiv (matched : ℚ) (requiredSkills.length : ℚ)

/-- Python's lexicographic string comparison `a <= b`, by code point. -/
def listLexLe : List Char → List Char → Bool
  | [], _ => true
  | _ :: _, [] => false
  | a :: as, b :: bs => if a = b then listLexLe as bs else decide (a < b)

/-- Embeds `a <= b` on Python strings. -/
def pyLe (a b : String) : Prop := listLexLe a.data b.data = true

instance : DecidableRel pyLe := fun a b => by unfold pyLe; infer_instance

/-- Embeds `_find_missing_skills`: required skills (length > 3) absent from the resume,
lower-cased, deduplicated, lexicographically sorted.  `sorted` of a duplicate-
free collection under a total order is order-insensitive, so insertion sort is
extensionally the same as Python's stable sort here. -/
def missingSkills (cvSkills requiredSkills : List String) : List String :=
  (((requiredSkills.filter
        (fun s => !cvSkills.contains (lowerStr s) && decide (3 < s.length))).map
      lowerStr).dedup).insertionSort pyLe

/-! ### `_calculate_education_score` -/

/-- Whether some suffix position of `l` matches one of the given lower-cased
alternatives with `\b` word boundaries on both sides (`re.search`).
All alternatives start and end with a word character, so the boundary
conditions reduce to "previous char is not a word char" and "following char is
not a word char". -/
def degScan (pats : List (List Char)) : Bool → List Char → Bool
  | _, [] => false
  | prevWord, c :: cs =>
    (!prevWord &&
      pats.any (fun p =>
        ciStarts p (c :: cs) &&
          !(((c :: cs).drop p.length).head?.elim false isWordChar)))
    || degScan pats (isWordChar c) cs

/-- Embeds `re.search(r'\b(b\.?s|bachelor)\b', text, re.I)`. -/
def detBachelor (text : String) : Bool :=
  degScan [['b', '.', 's'], ['b', 's'], ['b', 'a', 'c', 'h', 'e', 'l', 'o', 'r']]
    false text.data

/-- Embeds `re.search(r'\b(m\.?s|master)\b', text, re.I)`. -/
def detMaster (text : String) : Bool :=
  degScan [['m', '.', 's'], ['m', 's'], ['m', 'a', 's', 't', 'e', 'r']] false text.data

/-- Embeds `re.search(r'\b(phd|doctorate)\b', text, re.I)`. -/
def detPhd (text : String) : Bool :=
  degScan [['p', 'h', 'd'], ['d', 'o', 'c', 't', 'o', 'r', 'a', 't', 'e']] false text.data

/-- Embeds `len(candidate_degrees & required_degrees)`: the three detector labels are
distinct members of the required set, so the intersection size is the number of
detectors that fire. -/
def eduDetected (text : String) : ℕ :=
  (if detBachelor text then 1 else 0) + (if detMaster text then 1 else 0) +
    (if detPhd text then 1 else 0)

/-- Embeds `required_degrees = {'bachelor', 'master', 'phd'}`. -/
def requiredDegrees : List String := ["bachelor", "master", "phd"]

/-- Embeds `_calculate_education_score` (its `job_desc` argument is unused beyond the
constant required set). -/
def eduScore (resumeText jobDesc : String) : Option ℚ :=
  if requiredDegrees.isEmpty then some 1
  else qdiv (eduDetected resumeText : ℚ) (requiredDegrees.length : ℚ)

/-! ### `_calculate_compatibility_score` and `_format_score_breakdown` -/

/-- Embeds `_calculate_compatibility_score`.  The float literals 0.4, 0.15, 0.05 are
modelled as the exact rationals they denote. -/
def compatScore (similarity skills exp edu : ℚ) : ℚ :=
  let weighted := (2/5) * similarity + (2/5) * skills + (3/20) * exp + (1/20) * edu
  round2 (weighted * 100)

/-- The dict returned by `_format_score_breakdown`. -/
structure Breakdown where
  semantic_similarity : ℚ
  skill_coverage : ℚ
  experience_match : ℚ
  education_match : ℚ
deriving DecidableEq, Repr

/-- Embeds `_format_score_breakdown`. -/
def formatBreakdown (similarity skills exp edu : ℚ) : Breakdown :=
  { semantic_similarity := round2 (similarity * 100)
    skill_coverage := round2 (skills * 100)
    experience_match := round2 (exp * 100)
    education_match := round2 (edu * 100) }

/-! ### `_extract_section` -/

/-- Python `text.split(sep)` for a one-character separator (keeps empty parts). -/
def splitChar (sep : Char) : List Char → List (List Char)
  | [] => [[]]
  | c :: cs =>
    match splitChar sep cs with
    | [] => [[]]
    | t :: ts => if c = sep then [] :: t :: ts else (c :: t) :: ts

/-- Embeds `re.match(r'^\s*$', line)` on a line without newlines. -/
def isBlankLine (l : List Char) : Bool := l.all isPySpace

/-- Embeds `re.match(r'^\s*[A-Z][A-Z ]+:', line)`.  The `[A-Z ]+` run is maximal-munch
faithful because `':'` is outside the class. -/
def isCapsHeading (l : List Char) : Bool :=
  match l.dropWhile isPySpace with
  | [] => false
  | c :: cs =>
    isAZ c &&
      (let r := cs.takeWhile (fun d => isAZ d || d = ' ')
       !r.isEmpty && (cs.drop r.length).head? = some ':')

/-- The line loop of `_extract_section`.  The heading test — the compiled
`^\s*(section_name)\s*:*\s*$` pattern applied to the stripped line — is a
parameter, which quantifies over every section-name pattern. -/
def sectionLoop (heading : List Char → Bool) : Bool → List (List Char) → List (List Char)
  | _, [] => []
  | capture, ln :: rest =>
    if heading (stripChars ln) then sectionLoop heading true rest
    else if capture then
      if isBlankLine ln || isCapsHeading ln then []
      else stripChars ln :: sectionLoop heading capture rest
    else sectionLoop heading false rest

/-- Embeds `' '.join(lines)`. -/
def joinSpace : List (List Char) → List Char
  | [] => []
  | [l] => l
  | l :: l2 :: rest => l ++ ' ' :: joinSpace (l2 :: rest)

/-- Embeds `_extract_section`, with its compiled section-name pattern abstracted into
the `heading` predicate. -/
def extractSection (heading : List Char → Bool) (text : String) : String :=
  ⟨joinSpace (sectionLoop heading false (splitChar '\n' text.data))⟩

/-- Embeds `\s*:*\s*$` — the tail of the section-heading pattern. -/
def restColonSpaces (l : List Char) : Bool :=
  (((l.dropWhile isPySpace).dropWhile (fun c => c = ':')).dropWhile isPySpace).isEmpty

/-- The compiled `^\s*(skills|technical skills|competencies)\s*:*\s*$` pattern
(`re.IGNORECASE`), as applied by `_extract_section` to a stripped line. -/
def headingSkillsMatch (l : List Char) : Bool :=
  let r := l.dropWhile isPySpace
  [['s', 'k', 'i', 'l', 'l', 's'],
   ['t', 'e', 'c', 'h', 'n', 'i', 'c', 'a', 'l', ' ', 's', 'k', 'i', 'l', 'l', 's'],
   ['c', 'o', 'm', 'p', 'e', 't', 'e', 'n', 'c', 'i', 'e', 's']].any
    (fun p => ciStarts p r && restColonSpaces (r.drop p.length))

/-! ### `_extract_skills` and its helpers -/

/-- A noun chunk as delivered by the external spaCy model: its text and
whether any of its tokens is a stop word. -/
structure NounChunk where
  text : String
  hasStop : Bool

/-- The external capabilities consumed by `ResumeAnalyzer`: the spaCy
language model (named entities, noun chunks, document vectors) and the
rapidfuzz matcher.  They are parameters of the embedding. -/
structure ModelEnv where
  nounChunks : String → List NounChunk
  personName : String → String
  zeroVec : String → Bool
  cosine : String → String → ℚ
  fuzzyBest : String → List String → Option String

/-- Embeds `str.isnumeric()` (restricted to ASCII digits). -/
def isNumericStr (s : String) : Bool := !s.data.isEmpty && s.data.all Char.isDigit

/-- Embeds `_extract_noun_phrases`: filter the model's noun chunks by length bounds,
stop words and numeric text. -/
def nounPhrases (env : ModelEnv) (text : String) : List String :=
  ((env.nounChunks text).filter (fun ch =>
      decide (3 < ch.text.length) && decide (ch.text.length < 50) && !ch.hasStop &&
        !isNumericStr ch.text)).map
    (fun ch => ⟨stripChars (lowerStr ch.text).data⟩)

/-- Embeds `_match_known_skill`: verbatim if the vocabulary is empty, otherwise the
rapidfuzz best match above the 85 cutoff (external). -/
def matchKnownSkill (env : ModelEnv) (vocab : List String) (s : String) : Option String :=
  if vocab.isEmpty then some s else env.fuzzyBest s vocab

/-- Embeds `re.split(r'\n|,|;', text)`. -/
def splitNlCommaSemi : List Char → List (List Char)
  | [] => [[]]
  | c :: cs =>
    match splitNlCommaSemi cs with
    | [] => [[]]
    | t :: ts =>
      if c = '\n' || c = ',' || c = ';' then [] :: t :: ts else (c :: t) :: ts

/-- The `http[s]?://\S+` alternative of the noise pattern (with `re.I`),
returning the number of characters consumed. -/
def matchUrlLen (l : List Char) : Option ℕ :=
  if ciStarts ['h', 't', 't', 'p'] l then
    let k1 := if (l.drop 4).head?.map lowerChar = some 's' then 5 else 4
    let r1 := l.drop k1
    if r1.take 3 = [':', '/', '/'] then
      let body := (r1.drop 3).takeWhile (fun c => !isPySpace c)
      if body.isEmpty then none else some (k1 + 3 + body.length)
    else none
  else none

/-- The scan loop of `re.sub(r'[\d\.%]|years?|http[s]?://\S+', '', line,
flags=re.I)`: left to right, delete matches, trying the alternatives in
order (fuel-bounded scan; every match consumes at least one character). -/
def cleanNoiseGo : ℕ → List Char → List Char
  | _, [] => []
  | 0, _ :: _ => []
  | fuel + 1, c :: cs =>
    if c.isDigit || c = '.' || c = '%' then cleanNoiseGo fuel cs
    else if ciStarts ['y', 'e', 'a', 'r', 's'] (c :: cs) then
      cleanNoiseGo fuel ((c :: cs).drop 5)
    else if ciStarts ['y', 'e', 'a', 'r'] (c :: cs) then
      cleanNoiseGo fuel ((c :: cs).drop 4)
    else
      match matchUrlLen (c :: cs) with
      | some k => cleanNoiseGo fuel ((c :: cs).drop k)
      | none => c :: cleanNoiseGo fuel cs

/-- Embeds `re.sub(r'[\d\.%]|years?|http[s]?://\S+', '', line, flags=re.I)`. -/
def cleanNoise (l : List Char) : List Char := cleanNoiseGo l.length l

/-- The scan loop of `re.split(r'\s{2,}|- |/|•', line)` (fuel-bounded scan;
every separator consumes at least one character). -/
def splitSkillSepsGo : ℕ → List Char → List (List Char)
  | _, [] => [[]]
  | 0, _ :: _ => [[]]
  | fuel + 1, c :: cs =>
    if 2 ≤ ((c :: cs).takeWhile isPySpace).length then
      [] :: splitSkillSepsGo fuel ((c :: cs).drop ((c :: cs).takeWhile isPySpace).length)
    else if c = '/' || c = '•' then [] :: splitSkillSepsGo fuel cs
    else if c = '-' ∧ cs.head? = some ' ' then [] :: splitSkillSepsGo fuel (cs.drop 1)
    else
      match splitSkillSepsGo fuel cs with
      | [] => [[]]
      | t :: ts => (c :: t) :: ts

/-- Embeds `re.split(r'\s{2,}|- |/|•', line)`. -/
def splitSkillSeps (l : List Char) : List (List Char) := splitSkillSepsGo l.length l

/-- Embeds `_process_skill_line`. -/
def processSkillLine (env : ModelEnv) (vocab : List String) (line : String) :
    List String :=
  (splitSkillSeps line.data).filterMap (fun frag =>
    let s : String := ⟨stripChars frag⟩
    if 3 ≤ s.length ∧ s.length ≤ 40 then matchKnownSkill env vocab s else none)

/-- The blacklist checked (lower-cased, substring) by `_is_valid_skill`. -/
def skillBlacklist : List String :=
  ["http", "github", "contribution", "january", "february", "company", "owner"]

/-- Embeds `re.search(r'@|\.com|\d|year|month|http', skill)` (case-sensitive). -/
def hasNoiseMarker (s : String) : Bool :=
  s.data.contains '@' || containsSub ".com" s || s.data.any Char.isDigit ||
    containsSub "year" s || containsSub "month" s || containsSub "http" s

/-- Embeds `_is_valid_skill`. -/
def isValidSkill (s : String) : Bool :=
  s.data.any (fun c => 'a' ≤ c && c ≤ 'z') &&
    !(skillBlacklist.any (fun b => containsSub b (lowerStr s))) &&
    !hasNoiseMarker s

/-- The `(-len(x), x)` sort key of the source, as an order relation:
longer strings first, ties broken lexicographically. -/
def skillKeyLe (a b : String) : Prop :=
  b.length < a.length ∨ (a.length = b.length ∧ pyLe a b)

instance : DecidableRel skillKeyLe := fun a b => by unfold skillKeyLe; infer_instance

/-- Embeds `sorted(..., key=lambda x: (-len(x), x))` (on duplicate-free input, as at
both call sites, any correct sort matches Python's stable sort). -/
def sortSkills (l : List String) : List String := l.insertionSort skillKeyLe

/-- Embeds `_extract_skills`. -/
def extractSkills (env : ModelEnv) (vocab : List String) (text : String) :
    List String :=
  let sectionText := extractSection headingSkillsMatch text
  let fromSection := (splitNlCommaSemi sectionText.data).flatMap (fun ln =>
    let line : String := ⟨stripChars (cleanNoise ln)⟩
    if 3 ≤ line.length ∧ line.length ≤ 40 then processSkillLine env vocab line
    else [])
  if fromSection.isEmpty then nounPhrases env text
  else
    sortSkills
      (((fromSection.filter isValidSkill).map
          (fun s => ⟨stripChars (lowerStr s).data⟩)).dedup)

/-! ### `_extract_personal_info` and `_extract_links` -/

/-- The regex class `[\w\.-]` of the email pattern. -/
def isEmailChar (c : Char) : Bool := isWordChar c || c = '.' || c = '-'

/-- Greedy split point for the tail of `[\w\.-]+\.\w{2,}\b`: the largest index
`j ≥ 1` of `run2` holding `'.'` and followed by a maximal word run of length at
least 2 (the trailing `\b` then holds automatically, since a maximal word run
ends at a non-word character or at the end of the class run, whose following
character is outside the class and hence not a word character). -/
def emailTailSplit (run2 : List Char) : Option ℕ :=
  (List.range run2.length).reverse.find? (fun j =>
    decide (1 ≤ j) && (run2.getD j ' ' = '.') &&
      decide (2 ≤ ((run2.drop (j + 1)).takeWhile isWordChar).length))

/-- One attempted match of `\b[\w\.-]+@[\w\.-]+\.\w{2,}\b` starting at the head
of `l`, where `prevWord` says whether the preceding character is a word
character (`\b` is an exclusive-or of word-ness across the boundary). -/
def matchEmailAt (prevWord : Bool) (l : List Char) : Option (List Char) :=
  match l with
  | [] => none
  | c :: _ =>
    if !isEmailChar c then none
    else if prevWord == isWordChar c then none
    else
      let run1 := l.takeWhile isEmailChar
      match l.drop run1.length with
      | '@' :: r3 =>
        let run2 := r3.takeWhile isEmailChar
        match emailTailSplit run2 with
        | some j =>
          let m := ((run2.drop (j + 1)).takeWhile isWordChar).length
          some (run1 ++ '@' :: run2.take (j + 1 + m))
        | none => none
      | _ => none

/-- Embeds `re.search` scan for the email pattern (leftmost match). -/
def findEmail : Bool → List Char → Option (List Char)
  | _, [] => none
  | prevWord, c :: cs =>
    match matchEmailAt prevWord (c :: cs) with
    | some m => some m
    | none => findEmail (isWordChar c) cs

/-- The regex class `[\d\s()-]` of the phone pattern. -/
def isPhoneChar (c : Char) : Bool :=
  c.isDigit || isPySpace c || c = '(' || c = ')' || c = '-'

/-- Whether position `i` of `run`, or the character `nxt` just past it, is not
a word character (end of input counts as a boundary). -/
def noWordAt (run : List Char) (nxt : Option Char) (i : ℕ) : Bool :=
  if i < run.length then !isWordChar (run.getD i ' ')
  else nxt.elim true (fun c => !isWordChar c)

/-- Greedy split for `[\d\s()-]{10,}\d\b`: the largest `k ≥ 10` such that
`run.take k` feeds the class repetition, `run[k]` is the final digit, and a
word boundary follows. -/
def phoneSplit (run : List Char) (nxt : Option Char) : Option ℕ :=
  (List.range run.length).reverse.find? (fun k =>
    decide (10 ≤ k) && (run.getD k ' ').isDigit && noWordAt run nxt (k + 1))

/-- One attempted match of `\b\+?[\d\s()-]{10,}\d\b` starting at the head of
`l`.  A leading `'+'` is not a word character, so `\b` before it requires the
previous character to be a word character. -/
def matchPhoneAt (prevWord : Bool) (l : List Char) : Option (List Char) :=
  match l with
  | [] => none
  | c :: cs =>
    if c = '+' then
      if !prevWord then none
      else
        let run := cs.takeWhile isPhoneChar
        (phoneSplit run (cs.drop run.length).head?).map
          (fun k => '+' :: cs.take (k + 1))
    else if prevWord == isWordChar c then none
    else
      let run := l.takeWhile isPhoneChar
      (phoneSplit run (l.drop run.length).head?).map (fun k => l.take (k + 1))

/-- Embeds `re.search` scan for the phone pattern (leftmost match). -/
def findPhone : Bool → List Char → Option (List Char)
  | _, [] => none
  | prevWord, c :: cs =>
    match matchPhoneAt prevWord (c :: cs) with
    | some m => some m
    | none => findPhone (isWordChar c) cs

/-- One attempted match of `https?://[^\s/$.?#].[^\s]*` (case-sensitive, no
flags) at the head of `l`, returning the consumed length. -/
def matchLinkLen (l : List Char) : Option ℕ :=
  match l with
  | 'h' :: 't' :: 't' :: 'p' :: rest =>
    let k1 := if rest.head? = some 's' then 5 else 4
    let r1 := l.drop k1
    if r1.take 3 = [':', '/', '/'] then
      match r1.drop 3 with
      | c1 :: c2 :: r3 =>
        if !isPySpace c1 && !(c1 = '/') && !(c1 = '$') && !(c1 = '.') &&
            !(c1 = '?') && !(c1 = '#') && !(c2 = '\n') then
          some (k1 + 3 + 2 + (r3.takeWhile (fun c => !isPySpace c)).length)
        else none
      | _ => none
    else none
  | _ => none

/-- The `re.findall` loop for the link pattern, collecting matched substrings
(fuel-bounded scan; every match consumes at least nine characters). -/
def scanLinksGo : ℕ → List Char → List (List Char)
  | _, [] => []
  | 0, _ :: _ => []
  | fuel + 1, c :: cs =>
    match matchLinkLen (c :: cs) with
    | some k => (c :: cs).take k :: scanLinksGo fuel ((c :: cs).drop k)
    | none => scanLinksGo fuel cs

/-- Embeds `re.findall` scan for the link pattern. -/
def scanLinks (l : List Char) : List (List Char) := scanLinksGo l.length l

/-- Embeds `_extract_links`: `list(set(re.findall(...)))`.  A Python `set` of strings
iterates in an unspecified (hash-seed dependent) order; it is modelled as
first-occurrence deduplication of the findall list. -/
def extractLinks (text : String) : List String :=
  ((scanLinks text.data).map (fun m => (⟨m⟩ : String))).dedup

/-- The `personal_info` dict built by `_extract_personal_info`. -/
structure PersonalInfo where
  name : String
  email : String
  phone : String
  links : List String
deriving DecidableEq, Repr

/-- Embeds `_extract_personal_info`: PERSON entity from the model, first email match,
digits of the first phone match, deduplicated links. -/
def extractPersonalInfo (env : ModelEnv) (text : String) : PersonalInfo :=
  { name := env.personName text
    email := (findEmail false text.data).elim "" (fun m => ⟨m⟩)
    phone := (findPhone false text.data).elim "" (fun m => ⟨m.filter Char.isDigit⟩)
    links := extractLinks text }

/-! ### `analyze` -/

/-- The job-data mapping; `analyze` reads `description`, `requirements` and
`position` with `.get(key, '')`, so each field may be absent. -/
structure JobData where
  description : Option String
  requirements : Option String
  position : Option String

/-- Embeds `_calculate_semantic_similarity`: 0 on a zero-norm document vector, else
the model's cosine similarity clipped to `[0, 1]`. -/
def semSim (env : ModelEnv) (t1 t2 : String) : ℚ :=
  if env.zeroVec t1 || env.zeroVec t2 then 0
  else min (max (env.cosine t1 t2) 0) 1

/-- The analyzer state fixed at construction: the external model, the skill
vocabulary loaded from the CSV, and the current calendar year. -/
structure Analyzer where
  env : ModelEnv
  known_skills : List String
  current_year : ℤ

/-- The analysis record returned by `analyze`. -/
structure AnalysisResult where
  compatibility_score : ℚ
  missing_skills : List String
  experience_match : Bool
  education_match : Bool
  cv_data : PersonalInfo
  score_breakdown : Breakdown
deriving DecidableEq, Repr

/-- Embeds `analyze`.  The method also computes formatted experience, education
snippets and links for the intermediate `cv_data` dict; those values are pure
and are dropped from the returned record (`cv_data` keeps only
`personal_info`), so they are not re-computed here.  `none` models an
uncaught Python exception; the only possible sources in this fragment are the
three divisions. -/
def analyze (a : Analyzer) (resumeText : String) (jd : JobData) :
    Option AnalysisResult :=
  let text := cleanText resumeText
  let cvSkills := extractSkills a.env a.known_skills text
  let personal := extractPersonalInfo a.env text
  let jobDesc := cleanText ((jd.description.getD "") ++ " " ++ (jd.requirements.getD ""))
  let requiredSkills := extractSkills a.env a.known_skills jobDesc
  let sim := semSim a.env text jobDesc
  match skillScore cvSkills requiredSkills,
      expScore a.current_year text (jd.position.getD ""),
      eduScore text jobDesc with
  | some sk, some ex, some ed =>
    some
      { compatibility_score := compatScore sim sk ex ed
        missing_skills := missingSkills cvSkills requiredSkills
        experience_match := decide (ex ≥ 8/10)
        education_match := decide (ed ≥ 8/10)
        cv_data := personal
        score_breakdown := formatBreakdown sim sk ex ed }
  | _, _, _ => none

/-! ### The guarded scores are total: value forms and rewriting lemmas -/

/-- The value always produced by `_calculate_skill_score`. -/
def skillScoreVal (cv req : List String) : ℚ :=
  if req.isEmpty then 1
  else ((req.filter (fun s => cv.contains (lowerStr s))).length : ℚ) / (req.length : ℚ)

theorem skillScore_eq (cv req : List String) :
    skillScore cv req = some (skillScoreVal cv req) := by
  unfold skillScore skillScoreVal qdiv
  by_cases h : req.isEmpty
  · simp [h]
  · have hlen : req.length ≠ 0 := by
      cases req
      · simp at h
      · simp
    have : ((req.length : ℚ)) ≠ 0 := Nat.cast_ne_zero.mpr hlen
    simp [h, this]

/-- The value always produced by `_calculate_experience_score`. -/
def expScoreVal (year : ℤ) (text position : String) : ℚ :=
  min ((totalYears year text : ℚ) / (requiredYears position : ℚ)) 1

theorem requiredYears_pos (position : String) : 0 < requiredYears position := by
  unfold requiredYears
  dsimp only
  split
  · omega
  · split <;> omega

theorem expScore_eq (year : ℤ) (text position : String) :
    expScore year text position = some (expScoreVal year text position) := by
  unfold expScore expScoreVal qdiv
  dsimp only
  have h := requiredYears_pos position
  have hne : ((requiredYears position : ℚ)) ≠ 0 := by
    exact_mod_cast Nat.pos_iff_ne_zero.mp h
  simp [h, hne]

/-- The value always produced by `_calculate_education_score`. -/
def eduScoreVal (text : String) : ℚ := (eduDetected text : ℚ) / 3

theorem eduScore_eq (text jobDesc : String) :
    eduScore text jobDesc = some (eduScoreVal text) := by
  unfold eduScore eduScoreVal qdiv requiredDegrees
  norm_num

/-- The candidate skill list computed inside `analyze`. -/
def cvSkillsOf (a : Analyzer) (resumeText : String) : List String :=
  extractSkills a.env a.known_skills (cleanText resumeText)

/-- The cleaned `description + ' ' + requirements` text of `analyze`. -/
def jobDescOf (jd : JobData) : String :=
  cleanText ((jd.description.getD "") ++ " " ++ (jd.requirements.getD ""))

/-- The required skill list computed inside `analyze`. -/
def reqSkillsOf (a : Analyzer) (jd : JobData) : List String :=
  extractSkills a.env a.known_skills (jobDescOf jd)

/-- The record that `analyze` always returns. -/
def analyzeResult (a : Analyzer) (resumeText : String) (jd : JobData) :
    AnalysisResult :=
  { compatibility_score :=
      compatScore (semSim a.env (cleanText resumeText) (jobDescOf jd))
        (skillScoreVal (cvSkillsOf a resumeText) (reqSkillsOf a jd))
        (expScoreVal a.current_year (cleanText resumeText) (jd.position.getD ""))
        (eduScoreVal (cleanText resumeText))
    missing_skills := missingSkills (cvSkillsOf a resumeText) (reqSkillsOf a jd)
    experience_match :=
      decide (expScoreVal a.current_year (cleanText resumeText)
          (jd.position.getD "") ≥ 8/10)
    education_match := decide (eduScoreVal (cleanText resumeText) ≥ 8/10)
    cv_data := extractPersonalInfo a.env (cleanText resumeText)
    score_breakdown :=
      formatBreakdown (semSim a.env (cleanText resumeText) (jobDescOf jd))
        (skillScoreVal (cvSkillsOf a resumeText) (reqSkillsOf a jd))
        (expScoreVal a.current_year (cleanText resumeText) (jd.position.getD ""))
        (eduScoreVal (cleanText resumeText)) }

theorem analyze_eq (a : Analyzer) (t : String) (jd : JobData) :
    analyze a t jd = some (analyzeResult a t jd) := by
  unfold analyze analyzeResult cvSkillsOf reqSkillsOf jobDescOf
  simp only [skillScore_eq, expScore_eq, eduScore_eq]

/-! ### Order facts for the sorting relations -/

theorem listLexLe_total (a b : List Char) :
    listLexLe a b = true ∨ listLexLe b a = true := by
  induction a generalizing b with
  | nil => left; rfl
  | cons x xs ih =>
    cases b with
    | nil => right; rfl
    | cons y ys =>
      by_cases hxy : x = y
      · subst hxy
        rcases ih ys with h | h
        · left; simpa [listLexLe] using h
        · right; simpa [listLexLe] using h
      · rcases lt_or_gt_of_ne hxy with h | h
        · left; simp [listLexLe, hxy, h]
        · right; simp [listLexLe, Ne.symm hxy, h]

theorem listLexLe_trans {a b c : List Char} (h1 : listLexLe a b = true)
    (h2 : listLexLe b c = true) : listLexLe a c = true := by
  induction a generalizing b c with
  | nil => rfl
  | cons x xs ih =>
    cases b with
    | nil => simp [listLexLe] at h1
    | cons y ys =>
      cases c with
      | nil => simp [listLexLe] at h2
      | cons z zs =>
        by_cases hxy : x = y <;> by_cases hyz : y = z
        · subst hxy; subst hyz
          simp only [listLexLe, if_pos rfl] at h1 h2 ⊢
          exact ih h1 h2
        · subst hxy
          simp only [listLexLe, if_pos rfl, if_neg hyz] at h2 ⊢
          simp only [decide_eq_true_eq] at h2
          simp [if_neg hyz, h2]
        · subst hyz
          simp only [listLexLe, if_neg hxy] at h1 ⊢
          simp only [decide_eq_true_eq] at h1
          simp [if_neg hxy, h1]
        · simp only [listLexLe, if_neg hxy] at h1
          simp only [listLexLe, if_neg hyz] at h2
          simp only [decide_eq_true_eq] at h1 h2
          have hxz : x < z := lt_trans h1 h2
          simp [listLexLe, ne_of_lt hxz, hxz]

instance : IsTotal String pyLe :=
  ⟨fun a b => listLexLe_total a.data b.data⟩

instance : IsTrans String pyLe :=
  ⟨fun _ _ _ h1 h2 => listLexLe_trans h1 h2⟩

instance : IsTotal String skillKeyLe := by
  constructor
  intro a b
  unfold skillKeyLe
  rcases Nat.lt_trichotomy a.length b.length with h | h | h
  · right; left; exact h
  · rcases listLexLe_total a.data b.data with hl | hl
    · left; right; exact ⟨h, hl⟩
    · right; right; exact ⟨h.symm, hl⟩
  · left; left; exact h

instance : IsTrans String skillKeyLe := by
  constructor
  intro a b c h1 h2
  unfold skillKeyLe at h1 h2 ⊢
  rcases h1 with h1 | ⟨h1e, h1l⟩ <;> rcases h2 with h2 | ⟨h2e, h2l⟩
  · left; omega
  · left; omega
  · left; omega
  · right; exact ⟨by omega, listLexLe_trans h1l h2l⟩

/-! ### Lower-casing facts -/

theorem toNat_ofNat_small {n : ℕ} (h : n < 55296) : (Char.ofNat n).toNat = n := by
  have hv : n.isValidChar := Or.inl h
  simp only [Char.ofNat, dif_pos hv, Char.ofNatAux, Char.toNat]
  rfl

theorem lowerChar_eq_self {c : Char} (h : ¬(65 ≤ c.toNat ∧ c.toNat ≤ 90)) :
    lowerChar c = c := by
  unfold lowerChar
  rw [if_neg h]

theorem toNat_lowerChar_of_upper {c : Char} (h65 : 65 ≤ c.toNat) (h90 : c.toNat ≤ 90) :
    (lowerChar c).toNat = c.toNat + 32 := by
  unfold lowerChar
  rw [if_pos ⟨h65, h90⟩]
  exact toNat_ofNat_small (by omega)

theorem lowerChar_idem (c : Char) : lowerChar (lowerChar c) = lowerChar c := by
  by_cases h : 65 ≤ c.toNat ∧ c.toNat ≤ 90
  · have h2 := toNat_lowerChar_of_upper h.1 h.2
    exact lowerChar_eq_self (by rw [h2]; omega)
  · rw [lowerChar_eq_self h, lowerChar_eq_self h]

theorem lowerStr_idem (s : String) : lowerStr (lowerStr s) = lowerStr s := by
  unfold lowerStr
  congr 1
  rw [List.map_map]
  congr 1
  funext c
  exact lowerChar_idem c

/-! ### Structure of cleaned text -/

/-- All whitespace in `l` is the plain space character. -/
def spacesOnly (l : List Char) : Prop := ∀ c ∈ l, isPySpace c = true → c = ' '

/-- No two adjacent whitespace characters. -/
def noWSRun (l : List Char) : Prop :=
  l.Chain' (fun a b => ¬(isPySpace a = true ∧ isPySpace b = true))

theorem head?_collapseWS_not_space {d : Char} (rest : List Char)
    (hd : isPySpace d = false) : (collapseWS (d :: rest)).head? = some d := by
  cases rest with
  | nil => simp [collapseWS, hd]
  | cons e tail => simp [collapseWS, hd]

theorem collapseWS_cons_cons_ss {c d : Char} (rest : List Char)
    (h1 : isPySpace c = true) (h2 : isPySpace d = true) :
    collapseWS (c :: d :: rest) = collapseWS (d :: rest) := by
  simp [collapseWS, h1, h2]

theorem collapseWS_cons_cons_sn {c d : Char} (rest : List Char)
    (h1 : isPySpace c = true) (h2 : isPySpace d = false) :
    collapseWS (c :: d :: rest) = ' ' :: collapseWS (d :: rest) := by
  simp [collapseWS, h1, h2]

theorem collapseWS_cons_cons_n {c d : Char} (rest : List Char)
    (h1 : isPySpace c = false) :
    collapseWS (c :: d :: rest) = c :: collapseWS (d :: rest) := by
  simp [collapseWS, h1]

theorem spacesOnly_collapseWS (l : List Char) : spacesOnly (collapseWS l) := by
  induction l with
  | nil => intro c hc; simp [collapseWS] at hc
  | cons c cs ih =>
    cases cs with
    | nil =>
      intro x hx
      by_cases h : isPySpace c = true
      · simp only [collapseWS, if_pos h, List.mem_singleton] at hx
        intro _; exact hx
      · simp only [collapseWS, if_neg h, List.mem_singleton] at hx
        subst hx
        intro hc
        exact absurd hc h
    | cons d rest =>
      intro x hx
      by_cases h1 : isPySpace c = true
      · by_cases h2 : isPySpace d = true
        · rw [collapseWS_cons_cons_ss rest h1 h2] at hx
          exact ih x hx
        · rw [collapseWS_cons_cons_sn rest h1 (by simpa using h2)] at hx
          rcases List.mem_cons.mp hx with h | h
          · intro _; exact h
          · exact ih x h
      · rw [collapseWS_cons_cons_n rest (by simpa using h1)] at hx
        rcases List.mem_cons.mp hx with h | h
        · subst h; intro hc; exact absurd hc h1
        · exact ih x h

theorem noWSRun_collapseWS (l : List Char) : noWSRun (collapseWS l) := by
  induction l with
  | nil => exact List.chain'_nil
  | cons c cs ih =>
    cases cs with
    | nil =>
      by_cases h : isPySpace c = true
      · simp only [collapseWS, if_pos h]
        exact List.chain'_singleton _
      · simp only [collapseWS, if_neg h]
        exact List.chain'_singleton _
    | cons d rest =>
      by_cases h1 : isPySpace c = true
      · by_cases h2 : isPySpace d = true
        · rw [collapseWS_cons_cons_ss rest h1 h2]
          exact ih
        · have hd : isPySpace d = false := by simpa using h2
          rw [collapseWS_cons_cons_sn rest h1 hd]
          unfold noWSRun at ih ⊢
          rw [List.chain'_cons']
          refine ⟨?_, ih⟩
          intro b hb
          rw [head?_collapseWS_not_space rest hd] at hb
          simp only [Option.mem_def, Option.some.injEq] at hb
          subst hb
          intro hx
          exact absurd hx.2 (by simp [hd])
      · have hc : isPySpace c = false := by simpa using h1
        rw [collapseWS_cons_cons_n rest hc]
        unfold noWSRun at ih ⊢
        rw [List.chain'_cons']
        refine ⟨?_, ih⟩
        intro b _
        intro hx
        exact absurd hx.1 (by simp [hc])

theorem collapseWS_eq_self {l : List Char} (hs : spacesOnly l) (hr : noWSRun l) :
    collapseWS l = l := by
  induction l with
  | nil => rfl
  | cons c cs ih =>
    have hcs : spacesOnly cs := fun x hx => hs x (List.mem_cons_of_mem _ hx)
    have hrs : noWSRun cs := (List.chain'_cons'.mp hr).2
    cases cs with
    | nil =>
      by_cases h : isPySpace c = true
      · have : c = ' ' := hs c (List.mem_cons_self _ _) h
        subst this
        simp [collapseWS]
      · simp [collapseWS, h]
    | cons d rest =>
      by_cases h : isPySpace c = true
      · have hcd := (List.chain'_cons'.mp hr).1 d rfl
        have hd : isPySpace d = false := by
          by_contra hc
          exact hcd ⟨h, by simpa using hc⟩
        have hc' : c = ' ' := hs c (List.mem_cons_self _ _) h
        subst hc'
        simp only [collapseWS, if_pos h, hd]
        rw [ih hcs hrs]
        simp
      · simp only [collapseWS, if_neg h]
        rw [ih hcs hrs]

/-- Embeds `mapBullets` only rewrites non-whitespace characters to `'-'`. -/
theorem spacesOnly_mapBullets {l : List Char} (hs : spacesOnly l) :
    spacesOnly (mapBullets l) := by
  intro c hc hsp
  unfold mapBullets at hc
  rcases List.mem_map.mp hc with ⟨a, ha, rfl⟩
  by_cases hb : isBullet a = true
  · simp only [if_pos hb] at hsp ⊢
    exact absurd hsp (by decide)
  · simp only [if_neg hb] at hsp ⊢
    exact hs a ha hsp

theorem isPySpace_mapBullets_fn (c : Char) :
    isPySpace (if isBullet c then '-' else c) = isPySpace c := by
  by_cases hb : isBullet c = true
  · rw [if_pos hb]
    rcases Bool.or_eq_true _ _ |>.mp hb with h | h
    · rcases Bool.or_eq_true _ _ |>.mp h with h' | h'
      · rcases Bool.or_eq_true _ _ |>.mp h' with h'' | h''
        all_goals (simp only [decide_eq_true_eq] at *; subst_vars; decide)
      · simp only [decide_eq_true_eq] at h'; subst h'; decide
    · simp only [decide_eq_true_eq] at h; subst h; decide
  · rw [if_neg hb]

theorem noWSRun_mapBullets {l : List Char} (hr : noWSRun l) :
    noWSRun (mapBullets l) := by
  unfold noWSRun at hr ⊢
  unfold mapBullets
  rw [List.chain'_map]
  refine hr.imp ?_
  intro a b hab hc
  rw [isPySpace_mapBullets_fn a, isPySpace_mapBullets_fn b] at hc
  exact hab hc

theorem noBullets_mapBullets (l : List Char) :
    ∀ c ∈ mapBullets l, isBullet c = false := by
  intro c hc
  unfold mapBullets at hc
  rcases List.mem_map.mp hc with ⟨a, ha, rfl⟩
  by_cases hb : isBullet a = true
  · rw [if_pos hb]; decide
  · rw [if_neg hb]
    simpa using hb

theorem mapBullets_eq_self {l : List Char} (h : ∀ c ∈ l, isBullet c = false) :
    mapBullets l = l := by
  induction l with
  | nil => rfl
  | cons c cs ih =>
    unfold mapBullets at ih ⊢
    simp only [List.map_cons]
    rw [if_neg (by simp [h c (List.mem_cons_self _ _)]),
      ih (fun x hx => h x (List.mem_cons_of_mem _ hx))]

/-- Embeds `stripChars l` is an infix (contiguous) slice of `l`. -/
theorem stripChars_slice (l : List Char) : stripChars l <:+: l := by
  unfold stripChars
  have h1 : l.dropWhile isPySpace <:+ l := List.dropWhile_suffix _
  have h2 : (l.dropWhile isPySpace).reverse.dropWhile isPySpace <:+
      (l.dropWhile isPySpace).reverse := List.dropWhile_suffix _
  have h3 : ((l.dropWhile isPySpace).reverse.dropWhile isPySpace).reverse <+:
      l.dropWhile isPySpace := by
    rw [← List.reverse_reverse (l.dropWhile isPySpace)]
    exact List.reverse_prefix.mpr (by simpa using h2)
  rcases h3 with ⟨t, ht⟩
  rcases h1 with ⟨s, hs⟩
  refine ⟨s, t, ?_⟩
  rw [List.append_assoc, ht]
  exact hs

theorem spacesOnly_of_sublist {l m : List Char} (h : List.Sublist m l) (hs : spacesOnly l) :
    spacesOnly m :=
  fun c hc => hs c (h.mem hc)

theorem noWSRun_of_slice {l m : List Char} (h : m <:+: l) (hr : noWSRun l) :
    noWSRun m := by
  rcases h with ⟨s, t, rfl⟩
  unfold noWSRun at hr ⊢
  have h1 := (List.chain'_append.mp hr).1
  exact (List.chain'_append.mp h1).2.1

theorem head?_dropWhile_not {p : Char → Bool} (l : List Char) :
    ∀ c ∈ (l.dropWhile p).head?, p c = false := by
  induction l with
  | nil => intro c hc; simp at hc
  | cons a as ih =>
    by_cases h : p a = true
    · rw [List.dropWhile_cons_of_pos h]
      exact ih
    · rw [List.dropWhile_cons_of_neg h]
      intro c hc
      simp only [List.head?_cons, Option.mem_def, Option.some.injEq] at hc
      subst hc
      simpa using h

theorem dropWhile_eq_self_of_head {p : Char → Bool} {l : List Char}
    (h : ∀ c ∈ l.head?, p c = false) : l.dropWhile p = l := by
  cases l with
  | nil => rfl
  | cons a as =>
    have := h a rfl
    rw [List.dropWhile_cons_of_neg (by simp [this])]

theorem stripChars_head? (l : List Char) :
    ∀ c ∈ (stripChars l).head?, isPySpace c = false := by
  intro c hc
  unfold stripChars at hc
  rw [List.head?_reverse] at hc
  rcases hB : (l.dropWhile isPySpace).reverse.dropWhile isPySpace with _ | ⟨a, as⟩
  · rw [hB] at hc; simp at hc
  · rw [hB] at hc
    have hsuf : (a :: as) <:+ (l.dropWhile isPySpace).reverse :=
      hB ▸ List.dropWhile_suffix _
    rcases hsuf with ⟨t, ht⟩
    have h1 : ((l.dropWhile isPySpace).reverse).getLast? = (a :: as).getLast? := by
      rw [← ht]
      exact List.getLast?_append_of_ne_nil t (by simp)
    rw [List.getLast?_reverse] at h1
    rw [← h1] at hc
    exact head?_dropWhile_not l c hc

theorem stripChars_last? (l : List Char) :
    ∀ c ∈ (stripChars l).getLast?, isPySpace c = false := by
  intro c hc
  unfold stripChars at hc
  rw [List.getLast?_reverse] at hc
  exact head?_dropWhile_not _ c hc

theorem stripChars_eq_self {l : List Char}
    (h1 : ∀ c ∈ l.head?, isPySpace c = false)
    (h2 : ∀ c ∈ l.getLast?, isPySpace c = false) : stripChars l = l := by
  unfold stripChars
  rw [dropWhile_eq_self_of_head h1]
  rw [dropWhile_eq_self_of_head (by simpa [List.head?_reverse] using h2)]
  exact List.reverse_reverse l

theorem stripChars_idem (l : List Char) : stripChars (stripChars l) = stripChars l :=
  stripChars_eq_self (stripChars_head? l) (stripChars_last? l)

/-- The full invariant of cleaned text: only plain isolated spaces, no bullet
glyphs, no leading or trailing whitespace. -/
theorem cleanText_invariants (s : String) :
    spacesOnly (cleanText s).data ∧ noWSRun (cleanText s).data ∧
      (∀ c ∈ (cleanText s).data, isBullet c = false) ∧
      (∀ c ∈ (cleanText s).data.head?, isPySpace c = false) ∧
      (∀ c ∈ (cleanText s).data.getLast?, isPySpace c = false) := by
  unfold cleanText
  have hinf := stripChars_slice (mapBullets (collapseWS s.data))
  refine ⟨?_, ?_, ?_, ?_, ?_⟩
  · exact spacesOnly_of_sublist hinf.sublist
      (spacesOnly_mapBullets (spacesOnly_collapseWS s.data))
  · exact noWSRun_of_slice hinf (noWSRun_mapBullets (noWSRun_collapseWS s.data))
  · intro c hc
    exact noBullets_mapBullets _ c (hinf.sublist.mem hc)
  · exact stripChars_head? _
  · exact stripChars_last? _

/-- The newline character never survives `_clean_text`. -/
theorem no_newline_cleanText (s : String) : '\n' ∉ (cleanText s).data := by
  intro h
  have := (cleanText_invariants s).1 '\n' h (by decide)
  exact absurd this (by decide)

theorem splitChar_eq_single {sep : Char} {l : List Char} (h : sep ∉ l) :
    splitChar sep l = [l] := by
  induction l with
  | nil => rfl
  | cons c cs ih =>
    have hc : ¬(c = sep) := fun hx => h (hx ▸ List.mem_cons_self _ _)
    have hcs : sep ∉ cs := fun hx => h (List.mem_cons_of_mem _ hx)
    unfold splitChar
    rw [ih hcs]
    simp [hc]

theorem sectionLoop_single (heading : List Char → Bool) (ln : List Char) :
    sectionLoop heading false [ln] = [] := by
  by_cases h : heading (stripChars ln) = true <;>
    simp [sectionLoop, h]

/-! ### Claim theorems -/

/-- On cleaned text `_extract_section` always returns the empty string, for
every section-name pattern: cleaning collapses newlines, so the text is a
single line, which is either the heading itself (skipped by `continue`) or not
a heading (never captured). -/
theorem extractSection_cleanText_empty (heading : List Char → Bool) (t : String) :
    extractSection heading (cleanText t) = "" := by
  unfold extractSection
  rw [splitChar_eq_single (no_newline_cleanText t)]
  rw [sectionLoop_single]
  rfl

/-- On cleaned text, the section half of `_extract_skills` never produces a
fragment, so the result is exactly the noun-phrase fallback. -/
theorem extractSkills_cleanText (env : ModelEnv) (vocab : List String) (t : String) :
    extractSkills env vocab (cleanText t) = nounPhrases env (cleanText t) := by
  unfold extractSkills
  rw [extractSection_cleanText_empty headingSkillsMatch t]
  rfl

/-- C8: `_clean_text` is idempotent. -/
theorem C8_clean_text_idempotent (t : String) :
    cleanText (cleanText t) = cleanText t := by
  obtain ⟨hso, hnr, hnb, hhd, hlast⟩ := cleanText_invariants t
  show (⟨stripChars (mapBullets (collapseWS (cleanText t).data))⟩ : String) = cleanText t
  rw [collapseWS_eq_self hso hnr, mapBullets_eq_self hnb,
    stripChars_eq_self hhd hlast]

/-! ### Evaluating `round2` on explicit rationals -/

theorem rhe_eq_low {x : ℚ} {z : ℤ} (h1 : (z : ℚ) ≤ x) (h2 : x < (z : ℚ) + 1/2) :
    rhe x = z := by
  have hf : ⌊x⌋ = z := Int.floor_eq_iff.mpr ⟨h1, by push_cast; linarith⟩
  unfold rhe
  rw [hf, if_pos (by push_cast; linarith)]

theorem rhe_eq_high {x : ℚ} {z : ℤ} (h1 : (z : ℚ) + 1/2 < x) (h2 : x < (z : ℚ) + 1) :
    rhe x = z + 1 := by
  have hf : ⌊x⌋ = z := Int.floor_eq_iff.mpr ⟨by linarith, by push_cast; linarith⟩
  unfold rhe
  rw [hf, if_neg (by push_cast; linarith), if_pos (by push_cast; linarith)]

theorem round2_eq_low {x : ℚ} {z : ℤ} (h1 : (z : ℚ) ≤ x * 100)
    (h2 : x * 100 < (z : ℚ) + 1/2) : round2 x = (z : ℚ) / 100 := by
  unfold round2
  rw [rhe_eq_low h1 h2]

theorem round2_eq_high {x : ℚ} {z : ℤ} (h1 : (z : ℚ) + 1/2 < x * 100)
    (h2 : x * 100 < (z : ℚ) + 1) : round2 x = ((z : ℚ) + 1) / 100 := by
  unfold round2
  rw [rhe_eq_high h1 h2]
  push_cast
  ring

/-- C3: for every input string and every section-name pattern, extracting a
section from cleaned text yields the empty string (cleaning collapses all
newlines, and `_extract_section` only captures lines after a heading-only
line); consequently, inside `analyze` — which cleans the resume text first —
the skills-section heuristic never yields a fragment and the extracted skills
always come from the noun-phrase fallback. -/
theorem C3_skills_section_unreachable :
    (∀ (heading : List Char → Bool) (t : String),
        extractSection heading (cleanText t) = "") ∧
      ∀ (env : ModelEnv) (vocab : List String) (t : String),
        extractSkills env vocab (cleanText t) = nounPhrases env (cleanText t) :=
  ⟨extractSection_cleanText_empty, extractSkills_cleanText⟩

/-- C1: for sub-scores in [0,1], `_calculate_compatibility_score` returns
round(100·(0.4·similarity + 0.4·skills + 0.15·exp + 0.05·edu), 2 decimals),
and the result lies in [0, 100]. -/
theorem C1_compatibility_score_formula_and_range (s k e d : ℚ)
    (hs0 : 0 ≤ s) (hs1 : s ≤ 1) (hk0 : 0 ≤ k) (hk1 : k ≤ 1)
    (he0 : 0 ≤ e) (he1 : e ≤ 1) (hd0 : 0 ≤ d) (hd1 : d ≤ 1) :
    compatScore s k e d =
        round2 (((2/5) * s + (2/5) * k + (3/20) * e + (1/20) * d) * 100) ∧
      0 ≤ compatScore s k e d ∧ compatScore s k e d ≤ 100 := by
  have h0 : 0 ≤ ((2/5) * s + (2/5) * k + (3/20) * e + (1/20) * d) * 100 := by
    nlinarith
  have h1 : ((2/5) * s + (2/5) * k + (3/20) * e + (1/20) * d) * 100 ≤ 100 := by
    nlinarith
  exact ⟨rfl, (round2_bounds h0 h1).1, (round2_bounds h0 h1).2⟩

theorem C1_compatibility_score_formula_and_range_witness :
    compatScore 1 1 0 0 =
        round2 (((2/5) * 1 + (2/5) * 1 + (3/20) * 0 + (1/20) * 0) * 100) ∧
      0 ≤ compatScore 1 1 0 0 ∧ compatScore 1 1 0 0 ≤ 100 :=
  C1_compatibility_score_formula_and_range 1 1 0 0
    zero_le_one le_rfl zero_le_one le_rfl le_rfl zero_le_one le_rfl zero_le_one

/-- C4: with an empty required-skill list, `_calculate_skill_score` returns
exactly 1.0 and `_find_missing_skills` returns the empty list; with a
non-empty required-skill list the score is the fraction of required skills
whose lower-cased form appears in the candidate list. -/
theorem C4_skill_score_and_missing (cv req : List String) :
    (skillScore cv [] = some 1 ∧ missingSkills cv [] = []) ∧
      (req ≠ [] →
        skillScore cv req =
          some (((req.filter (fun s => cv.contains (lowerStr s))).length : ℚ) /
            (req.length : ℚ))) := by
  refine ⟨⟨rfl, rfl⟩, ?_⟩
  intro hne
  rw [skillScore_eq]
  unfold skillScoreVal
  rw [if_neg (by simpa using hne)]

theorem C4_skill_score_and_missing_witness :
    (skillScore ["python"] [] = some 1 ∧ missingSkills ["python"] [] = []) ∧
      skillScore ["python"] ["Python", "C"] =
        some (((["Python", "C"].filter
              (fun s => ["python"].contains (lowerStr s))).length : ℚ) /
          ((["Python", "C"] : List String).length : ℚ)) :=
  ⟨(C4_skill_score_and_missing ["python"] ["Python", "C"]).1,
    (C4_skill_score_and_missing ["python"] ["Python", "C"]).2 (by decide)⟩

/-- C6: the education sub-score is the number of degree levels among
bachelor/master/phd detected in the resume text by three independent regex
checks, divided by 3, and hence always one of 0, 1/3, 2/3, 1. -/
theorem C6_education_score_quantized (t jobDesc : String) :
    eduScore t jobDesc = some ((eduDetected t : ℚ) / 3) ∧
      ((eduDetected t : ℚ) / 3 = 0 ∨ (eduDetected t : ℚ) / 3 = 1/3 ∨
        (eduDetected t : ℚ) / 3 = 2/3 ∨ (eduDetected t : ℚ) / 3 = 1) := by
  refine ⟨eduScore_eq t jobDesc, ?_⟩
  cases hb : detBachelor t <;> cases hm : detMaster t <;> cases hp : detPhd t <;>
    simp [eduDetected, hb, hm, hp] <;> norm_num

/-- C2: the experience sub-score is min(total/required, 1), with total the sum
of all duration and date-range mentions and required 5/2/3 according to
"senior"/"junior" in the lower-cased title; in particular a resume consisting
of "2018-2022" against a "Senior Engineer" position scores 0.8, which meets
the 0.8 experience_match threshold in the analysis result. -/
theorem C2_experience_score :
    (∀ (year : ℤ) (text pos : String),
        expScore year text pos =
          some (min ((totalYears year text : ℚ) / (requiredYears pos : ℚ)) 1)) ∧
      (∀ (year : ℤ) (text : String),
        totalYears year text =
          ((scanYears text.data).map Int.ofNat).sum +
            (scanRanges year text.data).sum) ∧
      (∀ pos : String,
        requiredYears pos =
          if containsSub "senior" (lowerStr pos) = true then 5
          else if containsSub "junior" (lowerStr pos) = true then 2 else 3) ∧
      totalYears 2025 "2018-2022" = 4 ∧
      expScore 2025 "2018-2022" "Senior Engineer" = some (4/5) ∧
      ∀ (env : ModelEnv) (vocab : List String),
        ∃ r, analyze ⟨env, vocab, 2025⟩ "2018-2022"
              ⟨none, none, some "Senior Engineer"⟩ = some r ∧
          r.experience_match = true ∧ r.score_breakdown.experience_match = 80 := by
  have htot : totalYears 2025 "2018-2022" = 4 := by decide
  have hreq : requiredYears "Senior Engineer" = 5 := by decide
  have hclean : cleanText "2018-2022" = "2018-2022" := by decide
  have hval : expScoreVal 2025 "2018-2022" "Senior Engineer" = 4/5 := by
    unfold expScoreVal
    rw [htot, hreq]
    rw [min_eq_left (by norm_num)]
    norm_num
  have hsum : ∀ (year : ℤ) (text : String),
      totalYears year text =
        ((scanYears text.data).map Int.ofNat).sum +
          (scanRanges year text.data).sum := by
    intro year text
    unfold totalYears extractExperience
    rw [List.map_append, List.sum_append, List.map_map, List.map_map]
    congr 1
    rw [show mentionYears ∘ ExpMention.range = id from funext (fun y => rfl),
      List.map_id]
  refine ⟨fun year text pos => expScore_eq year text pos, hsum, fun pos => rfl, htot,
    ?_, ?_⟩
  · rw [expScore_eq, hval]
  · intro env vocab
    refine ⟨_, analyze_eq _ _ _, ?_, ?_⟩
    · show decide (expScoreVal 2025
          (cleanText "2018-2022") ((some "Senior Engineer").getD "") ≥ 8/10) = true
      rw [hclean]
      simp only [Option.getD_some]
      simp only [hval]
      norm_num
    · show round2 (expScoreVal 2025
          (cleanText "2018-2022") ((some "Senior Engineer").getD "") * 100) = 80
      rw [hclean]
      simp only [Option.getD_some]
      rw [hval]
      rw [round2_eq_low (z := 8000) (by norm_num) (by norm_num)]
      norm_num

theorem eduDetected_le_three (t : String) : eduDetected t ≤ 3 := by
  unfold eduDetected
  split_ifs <;> omega

/-- C10: the education_match boolean in the analysis result is true exactly
when all three degree detectors fire on the (cleaned) resume text: the
education sub-score is quantized to multiples of 1/3, so the 0.8 threshold is
reached only at score 1. -/
theorem C10_education_match_iff_all_detectors (a : Analyzer) (t : String)
    (jd : JobData) :
    ∃ r, analyze a t jd = some r ∧
      (r.education_match = true ↔
        detBachelor (cleanText t) = true ∧ detMaster (cleanText t) = true ∧
          detPhd (cleanText t) = true) := by
  refine ⟨_, analyze_eq a t jd, ?_⟩
  show decide (eduScoreVal (cleanText t) ≥ 8/10) = true ↔ _
  rw [decide_eq_true_iff]
  unfold eduScoreVal
  have hiff : ((eduDetected (cleanText t) : ℚ) / 3 ≥ 8/10) ↔
      eduDetected (cleanText t) = 3 := by
    have hle := eduDetected_le_three (cleanText t)
    constructor
    · intro h
      by_contra hne
      have h2 : eduDetected (cleanText t) ≤ 2 := by omega
      have h2q : (eduDetected (cleanText t) : ℚ) ≤ 2 := by exact_mod_cast h2
      rw [ge_iff_le, div_le_div_iff (by norm_num) (by norm_num)] at h
      linarith
    · intro h
      rw [h]
      norm_num
  rw [hiff]
  unfold eduDetected
  cases hb : detBachelor (cleanText t) <;> cases hm : detMaster (cleanText t) <;>
    cases hp : detPhd (cleanText t) <;> simp

theorem semSim_mem (env : ModelEnv) (t1 t2 : String) :
    0 ≤ semSim env t1 t2 ∧ semSim env t1 t2 ≤ 1 := by
  unfold semSim
  split
  · norm_num
  · constructor
    · exact le_min (le_max_right _ _) (by norm_num)
    · exact min_le_right _ _

theorem skillScoreVal_mem (cv req : List String) :
    0 ≤ skillScoreVal cv req ∧ skillScoreVal cv req ≤ 1 := by
  unfold skillScoreVal
  split
  · norm_num
  · rename_i h
    have hpos : 0 < req.length := by
      cases req
      · simp at h
      · simp
    constructor
    · positivity
    · rw [div_le_one (by exact_mod_cast hpos)]
      have := List.length_filter_le (fun s => cv.contains (lowerStr s)) req
      exact_mod_cast this

theorem eduScoreVal_mem (t : String) :
    0 ≤ eduScoreVal t ∧ eduScoreVal t ≤ 1 := by
  unfold eduScoreVal
  have h := eduDetected_le_three t
  have hq : (eduDetected t : ℚ) ≤ 3 := by exact_mod_cast h
  constructor
  · positivity
  · rw [div_le_one (by norm_num)]
    linarith

theorem breakdown_field_bounds {v : ℚ} (h0 : 0 ≤ v) (h1 : v ≤ 1) :
    0 ≤ round2 (v * 100) ∧ round2 (v * 100) ≤ 100 :=
  round2_bounds (by nlinarith) (by nlinarith)

theorem missingSkills_sorted (cv req : List String) :
    (missingSkills cv req).Sorted pyLe :=
  List.sorted_insertionSort pyLe _

theorem missingSkills_nodup (cv req : List String) :
    (missingSkills cv req).Nodup :=
  (List.perm_insertionSort pyLe _).symm.nodup (List.nodup_dedup _)

theorem analyzeResult_missing_skills (a : Analyzer) (t : String) (jd : JobData) :
    (analyzeResult a t jd).missing_skills =
      missingSkills (cvSkillsOf a t) (reqSkillsOf a jd) := by
  simp only [analyzeResult]

theorem analyzeResult_bd_sim (a : Analyzer) (t : String) (jd : JobData) :
    (analyzeResult a t jd).score_breakdown.semantic_similarity =
      round2 (semSim a.env (cleanText t) (jobDescOf jd) * 100) := by
  simp only [analyzeResult, formatBreakdown]

theorem analyzeResult_bd_skill (a : Analyzer) (t : String) (jd : JobData) :
    (analyzeResult a t jd).score_breakdown.skill_coverage =
      round2 (skillScoreVal (cvSkillsOf a t) (reqSkillsOf a jd) * 100) := by
  simp only [analyzeResult, formatBreakdown]

theorem analyzeResult_bd_edu (a : Analyzer) (t : String) (jd : JobData) :
    (analyzeResult a t jd).score_breakdown.education_match =
      round2 (eduScoreVal (cleanText t) * 100) := by
  simp only [analyzeResult, formatBreakdown]

/-- C7: `analyze` always completes with a well-formed result — for every
resume text and every job-data record (including ones missing description,
requirements or position) the three guarded divisions succeed, the
missing-skill list is sorted and duplicate-free, and the percentage
sub-scores whose raw values are in [0,1] land in [0,100].  In the embedding
`none` stands for an uncaught exception, so `= some r` is exactly
"no error is raised". -/
theorem C7_analyze_total_and_well_formed (a : Analyzer) (t : String)
    (jd : JobData) :
    ∃ r, analyze a t jd = some r ∧
      r.missing_skills.Sorted pyLe ∧ r.missing_skills.Nodup ∧
      (0 ≤ r.score_breakdown.semantic_similarity ∧
        r.score_breakdown.semantic_similarity ≤ 100) ∧
      (0 ≤ r.score_breakdown.skill_coverage ∧
        r.score_breakdown.skill_coverage ≤ 100) ∧
      (0 ≤ r.score_breakdown.education_match ∧
        r.score_breakdown.education_match ≤ 100) := by
  refine ⟨_, analyze_eq a t jd, ?_, ?_, ?_, ?_, ?_⟩
  · rw [analyzeResult_missing_skills]
    exact missingSkills_sorted _ _
  · rw [analyzeResult_missing_skills]
    exact missingSkills_nodup _ _
  · rw [analyzeResult_bd_sim]
    exact breakdown_field_bounds (semSim_mem a.env (cleanText t) (jobDescOf jd)).1
      (semSim_mem a.env (cleanText t) (jobDescOf jd)).2
  · rw [analyzeResult_bd_skill]
    exact breakdown_field_bounds
      (skillScoreVal_mem (cvSkillsOf a t) (reqSkillsOf a jd)).1
      (skillScoreVal_mem (cvSkillsOf a t) (reqSkillsOf a jd)).2
  · rw [analyzeResult_bd_edu]
    exact breakdown_field_bounds (eduScoreVal_mem (cleanText t)).1
      (eduScoreVal_mem (cleanText t)).2

/-! ### `_load_skills` and vocabulary immutability -/

/-- Embeds `_load_skills`: `list(df.stack().dropna().astype(str).str.lower().unique())`
then `sorted(..., key=lambda x: (-len(x), x))`.  The pandas pipeline is
modelled by its output before lower-casing: the list of non-NaN cell strings
in stacking order.  `unique` keeps one copy of each string; since equal
strings are indistinguishable and the final sort is by a total order,
first-occurrence and last-occurrence deduplication give the same result. -/
def loadSkills (cells : List String) : List String :=
  sortSkills ((cells.map lowerStr).dedup)

/-- The Python method `analyze` as a state transformer on the analyzer
object: its body never assigns to any `self` attribute, so the state
component is returned unchanged. -/
def analyzeStep (a : Analyzer) (resumeText : String) (jd : JobData) :
    Option AnalysisResult × Analyzer :=
  (analyze a resumeText jd, a)

/-- The Python method `extract_text` as a state transformer, with the
pdfplumber page texts as input (`none` models a page whose `extract_text()`
returns `None`, mapped to `''` by `or ''`): newline-join then clean.  Its
body never assigns to any `self` attribute either. -/
def extractTextStep (a : Analyzer) (pages : List (Option String)) :
    String × Analyzer :=
  (cleanText (String.intercalate "\n" (pages.map (fun p => p.getD ""))), a)

/-- C9: the loaded skill vocabulary is duplicate-free, lower-case (fixed by
lower-casing), sorted by descending length then lexicographically, contains
no empty string when no cell is empty, and no subsequent `analyze` call
changes the analyzer state. -/
theorem C9_vocabulary_invariant (cells : List String) :
    (loadSkills cells).Nodup ∧
      (∀ s ∈ loadSkills cells, lowerStr s = s) ∧
      (loadSkills cells).Sorted skillKeyLe ∧
      ((∀ c ∈ cells, c ≠ "") → ∀ s ∈ loadSkills cells, s ≠ "") ∧
      (∀ (a : Analyzer) (t : String) (jd : JobData), (analyzeStep a t jd).2 = a) ∧
      ∀ (a : Analyzer) (pages : List (Option String)),
        (extractTextStep a pages).2 = a := by
  have hmem : ∀ s ∈ loadSkills cells, s ∈ (cells.map lowerStr).dedup := by
    intro s hs
    exact (List.perm_insertionSort skillKeyLe _).mem_iff.mp hs
  refine ⟨?_, ?_, ?_, ?_, ?_, ?_⟩
  · exact (List.perm_insertionSort skillKeyLe _).symm.nodup (List.nodup_dedup _)
  · intro s hs
    have h1 := (List.mem_dedup.mp (hmem s hs))
    rcases List.mem_map.mp h1 with ⟨x, _, rfl⟩
    exact lowerStr_idem x
  · exact List.sorted_insertionSort skillKeyLe _
  · intro hne s hs
    have h1 := (List.mem_dedup.mp (hmem s hs))
    rcases List.mem_map.mp h1 with ⟨x, hx, rfl⟩
    intro hcon
    apply hne x hx
    have hdata : x.data.map lowerChar = [] := congrArg String.data hcon
    have : x.data = [] := List.map_eq_nil.mp hdata
    cases x
    simp_all
  · intro a t jd
    rfl
  · intro a pages
    rfl

theorem C9_vocabulary_invariant_witness :
    (loadSkills ["Python", "SQL"]).Nodup ∧
      (∀ s ∈ loadSkills ["Python", "SQL"], lowerStr s = s) ∧
      (loadSkills ["Python", "SQL"]).Sorted skillKeyLe ∧
      (∀ s ∈ loadSkills ["Python", "SQL"], s ≠ "") ∧
      (∀ (a : Analyzer) (t : String) (jd : JobData), (analyzeStep a t jd).2 = a) ∧
      ∀ (a : Analyzer) (pages : List (Option String)),
        (extractTextStep a pages).2 = a :=
  ⟨(C9_vocabulary_invariant ["Python", "SQL"]).1,
    (C9_vocabulary_invariant ["Python", "SQL"]).2.1,
    (C9_vocabulary_invariant ["Python", "SQL"]).2.2.1,
    (C9_vocabulary_invariant ["Python", "SQL"]).2.2.2.1 (by decide),
    (C9_vocabulary_invariant ["Python", "SQL"]).2.2.2.2.1,
    (C9_vocabulary_invariant ["Python", "SQL"]).2.2.2.2.2⟩

/-! ### C5: the breakdown round trip -/

/-- Modelled from the spec: "feeding the formatted score breakdown's raw
sub-scores back through the weighting formula reproduces compatibility_score".
The breakdown values are on the 0–100 scale, so they are rescaled to [0,1]
and passed through `_calculate_compatibility_score` again. -/
def specRoundTrip (b : Breakdown) : ℚ :=
  compatScore (b.semantic_similarity / 100) (b.skill_coverage / 100)
    (b.experience_match / 100) (b.education_match / 100)

theorem round2_zero_mul : round2 ((0 : ℚ) * 100) = 0 := by
  rw [round2_eq_low (z := 0) (by norm_num) (by norm_num)]
  norm_num

/-- C5 fails: rounding each sub-score to 2 decimals before re-weighting can
move the weighted sum across a rounding boundary.  At similarity 0.1236275
(other sub-scores 0) the direct score is 4.95 but the round trip gives 4.94. -/
theorem C5_round_trip_counterexample :
    specRoundTrip (formatBreakdown (1236275/10000000) 0 0 0) ≠
      compatScore (1236275/10000000) 0 0 0 := by
  have hsim : round2 ((1236275/10000000 : ℚ) * 100) = 1236/100 := by
    rw [round2_eq_low (z := 1236) (by norm_num) (by norm_num)]
    norm_num
  have hb : formatBreakdown (1236275/10000000) 0 0 0 =
      { semantic_similarity := 1236/100, skill_coverage := 0,
        experience_match := 0, education_match := 0 } := by
    unfold formatBreakdown
    rw [hsim, round2_zero_mul]
  rw [hb]
  have hL : specRoundTrip
      { semantic_similarity := (1236/100 : ℚ), skill_coverage := 0,
        experience_match := 0, education_match := 0 } = 494/100 := by
    unfold specRoundTrip compatScore
    dsimp only
    rw [round2_eq_low (z := 494) (by norm_num) (by norm_num)]
    norm_num
  have hR : compatScore (1236275/10000000) 0 0 0 = 495/100 := by
    unfold compatScore
    dsimp only
    rw [round2_eq_high (z := 494) (by norm_num) (by norm_num)]
    norm_num
  rw [hL, hR]
  norm_num

theorem rhe_diff_le {x y : ℚ} (h : |x - y| ≤ 1/2) : |rhe x - rhe y| ≤ 1 := by
  have hx1 := rhe_le x
  have hx2 := rhe_ge x
  have hy1 := rhe_le y
  have hy2 := rhe_ge y
  rcases abs_le.mp h with ⟨ha, hb⟩
  have h3 : rhe x - rhe y < 2 := by
    by_contra hc
    push_neg at hc
    have hq : ((2 : ℤ) : ℚ) ≤ ((rhe x - rhe y : ℤ) : ℚ) := by exact_mod_cast hc
    push_cast at hq
    linarith
  have h4 : (-2 : ℤ) < rhe x - rhe y := by
    by_contra hc
    push_neg at hc
    have hq : ((rhe x - rhe y : ℤ) : ℚ) ≤ ((-2 : ℤ) : ℚ) := by exact_mod_cast hc
    push_cast at hq
    linarith
  rw [abs_le]
  omega

theorem int_div100_diff {z1 z2 : ℤ} (h : |z1 - z2| ≤ 1) :
    |(z1 : ℚ)/100 - (z2 : ℚ)/100| ≤ 1/100 := by
  have e : (z1 : ℚ)/100 - (z2 : ℚ)/100 = ((z1 - z2 : ℤ) : ℚ)/100 := by
    push_cast
    ring
  have hq : |((z1 - z2 : ℤ) : ℚ)| ≤ 1 := by
    rw [← Int.cast_abs]
    exact_mod_cast h
  rw [e, abs_div, abs_of_pos (by norm_num : (0:ℚ) < 100)]
  exact (div_le_div_right (by norm_num : (0:ℚ) < 100)).mpr hq

/-- C5 amended: re-weighting the rounded breakdown values reproduces the
compatibility score only to within 0.01 — each breakdown entry carries a
rounding error of at most 0.005 on the percentage scale, the weights sum to
one, and the final rounding can therefore shift by at most one cent. -/
theorem C5_round_trip_within_one_cent (s k e d : ℚ) :
    |specRoundTrip (formatBreakdown s k e d) - compatScore s k e d| ≤ 1/100 := by
  unfold specRoundTrip formatBreakdown compatScore round2
  dsimp only
  apply int_div100_diff
  apply rhe_diff_le
  have b1a := rhe_le (s * 100 * 100)
  have b1b := rhe_ge (s * 100 * 100)
  have b2a := rhe_le (k * 100 * 100)
  have b2b := rhe_ge (k * 100 * 100)
  have b3a := rhe_le (e * 100 * 100)
  have b3b := rhe_ge (e * 100 * 100)
  have b4a := rhe_le (d * 100 * 100)
  have b4b := rhe_ge (d * 100 * 100)
  rw [abs_le]
  constructor <;> nlinarith [b1a, b1b, b2a, b2b, b3a, b3b, b4a, b4b]

end ATS
